import Mathlib

/-!
Shallow embedding of src/construct_tree.rs (tm_solver): the decision-tree
search for "guess the hidden code" games with fixed-size test rounds.

Modelling conventions:
* `Vec<u8>` outcome vectors are `List Nat`; Rust's panicking index `e.0[i]`
  is modelled by `List.getD _ i 0` (the two agree whenever the index is in
  range, which is the only situation in which the Rust program returns).
* `HashSet` values are modelled as duplicate-free `List`s built with an
  insert-if-absent operation; Rust leaves the iteration order of a `HashSet`
  unspecified, so the fixed order chosen here is one legitimate refinement.
* `HashMap<Vec<u8>, Vec<T>>` is an association list with `find?` lookup.
  Rust's `codes[0]` (which panics on an empty value vector) is modelled by
  `List.head?`; an empty catalogue entry, which would panic in Rust, is
  treated as a missed probe.
* The mutual recursion `construct_trees_rec` / `optimal_tree` terminates
  because every partition is strictly smaller than its batch.  It is embedded
  with an explicit fuel parameter so that every definition computes by kernel
  reduction; a chain of nested calls starting from a batch of n candidates
  consumes at most 2*n+2 units of fuel (each recursive step either moves from
  `optimal_tree` to `construct_trees_rec` on the same batch, or strictly
  shrinks the batch), which is exactly the fuel the exported wrappers supply.
* `u8`/`usize` counters are modelled as `Nat`; `a - 1 - current_level` keeps
  Rust's `u8` semantics precisely when no underflow occurs, which is what the
  reachability analysis below establishes.
-/

/-- A possible solution with its test results: Rust type `Feasible<T> = (Vec<u8>, T)`. -/
abbrev Feasible (α : Type) := List Nat × α

/-- A test number together with its result: Rust type `Test = (usize, u8)`. -/
abbrev Test := Nat × Nat

/-- The decision tree: Rust enum `BinaryTree<T>` with struct `Branch<T>`
(fields `test`, `correct`, `incorrect`, `code`) inlined into the `Branch`
constructor. -/
inductive BinaryTree (α : Type) where
  | Leaf : α → BinaryTree α
  | Branch : Test → BinaryTree α → BinaryTree α → Option α → BinaryTree α
deriving DecidableEq

namespace BinaryTree

/-- Rust `BinaryTree::max_depth` / `Branch::max_depth`. -/
def maxDepth : BinaryTree α → Nat
  | Leaf _ => 0
  | Branch _ c i _ => 1 + max (maxDepth c) (maxDepth i)

/-- Rust `BinaryTree::total_depth` / `Branch::total_depth`. -/
def totalDepth : BinaryTree α → Nat
  | Leaf _ => 0
  | Branch _ c i _ => 1 + totalDepth c + totalDepth i

/-- Rust `BinaryTree::size`. -/
def size : BinaryTree α → Nat
  | Leaf _ => 1
  | Branch _ c i _ => 1 + size c + size i

/-- Insert-if-absent, modelling `HashSet::insert` on a list representation. -/
def insertTest (acc : List Test) (t : Test) : List Test :=
  if t ∈ acc then acc else acc ++ [t]

/-- Rust `BinaryTree::get_tests` / `Branch::get_tests`: the tests used from
this node down to `subLevels` additional levels. -/
def getTests (subLevels : Nat) : BinaryTree α → List Test
  | Leaf _ => []
  | Branch t c i _ =>
    if 0 < subLevels then
      ((getTests (subLevels - 1) c) ++ (getTests (subLevels - 1) i)).foldl insertTest [t]
    else [t]

/-- The solutions at the leaves, left to right (a query used by the
specification layer; not part of the Rust tree API). -/
def leavesList : BinaryTree α → List α
  | Leaf s => [s]
  | Branch _ c i _ => leavesList c ++ leavesList i

/-- Walk the tree guided by an outcome vector: take the `correct` child
exactly when the vector's entry at the branch's test id equals the branch's
committed value.  This models the interactive walk of the front end. -/
def findLeaf (outcome : List Nat) : BinaryTree α → α
  | Leaf s => s
  | Branch t c i _ =>
    if outcome.getD t.1 0 = t.2 then findLeaf outcome c else findLeaf outcome i

/-- Sum of the depths of all leaves below, starting from depth `d`. -/
def sumLeafDepthsFrom (d : Nat) : BinaryTree α → Nat
  | Leaf _ => d
  | Branch _ c i _ => sumLeafDepthsFrom (d + 1) c + sumLeafDepthsFrom (d + 1) i

/-- Modelled from the spec: the "total nodes-to-leaf path length summed over
all leaves" that §4.1 of the spec ascribes to `summed_depth()`.  This is the
spec-side definition, to be compared with the code's `totalDepth`. -/
def sumLeafDepths (t : BinaryTree α) : Nat := sumLeafDepthsFrom 0 t

end BinaryTree

/-- Rust struct `TestResult<T>`: a test together with the partition of the
batch it induces. -/
structure TestResult (α : Type) where
  test : Test
  correct : List (Feasible α)
  incorrect : List (Feasible α)
deriving DecidableEq

/-- The loop body of `TestResult::from_test`, preserving the order of
`entries`. -/
def fromTestAux (i v : Nat) : List (Feasible α) → List (Feasible α) × List (Feasible α)
  | [] => ([], [])
  | e :: rest =>
    let p := fromTestAux i v rest
    if e.1.getD i 0 = v then (e :: p.1, p.2) else (p.1, e :: p.2)

/-- Rust `TestResult::from_test`. -/
def fromTest (entries : List (Feasible α)) (t : Test) : TestResult α :=
  { test := t
    correct := (fromTestAux t.1 t.2 entries).1
    incorrect := (fromTestAux t.1 t.2 entries).2 }

/-- Rust `TestResult::estimated_value`: the minimum of the two partition
sizes. -/
def estimatedValue (r : TestResult α) : Nat :=
  min r.correct.length r.incorrect.length

/-- Rust `get_permutations`: all choices of one value per test from the
per-test value sets (the Cartesian product; Rust's iteration order over hash
sets is unspecified, this is one refinement of it). -/
def getPermutations : List (List Nat) → List (List Nat)
  | [] => [[]]
  | s :: rest => s.flatMap (fun v => (getPermutations rest).map (fun p => v :: p))

/-- `HashMap::get` on the association-list model of the solution catalogue. -/
def mapGet (m : List (List Nat × List α)) (k : List Nat) : Option (List α) :=
  (m.find? (fun q => q.1 == k)).map (fun q => q.2)

/-- The `results` vector of the round-code search: the per-test value sets
with every test committed by `window` collapsed to its committed value
(`results[test] = {res}` in the Rust loop). -/
def overrideResults (tests : List (List Nat)) (window : List Test) : List (List Nat) :=
  window.foldl (fun res q => res.set q.1 [q.2]) tests

/-- The round-code resolution loop of `construct_trees_rec` (lines 372-391):
probe the catalogue with every permutation; the first hit's first stored
solution becomes the round code. -/
def findCode (m : List (List Nat × List α)) (tests : List (List Nat)) (window : List Test) : Option α :=
  (getPermutations (overrideResults tests window)).findSome?
    (fun p => (mapGet m p).bind List.head?)

/-- Insert-if-absent for `HashSet<u8>` on the list representation. -/
def insertValue (acc : List Nat) (v : Nat) : List Nat :=
  if v ∈ acc then acc else acc ++ [v]

/-- The per-test observed-value sets computed by `optimal_tree`
(lines 208-214): for every test index, the set of values appearing in the
batch. -/
def computeTests (entries : List (Feasible α)) : List (List Nat) :=
  (List.range (entries.head?.elim 0 (fun e => e.1.length))).map (fun i =>
    entries.foldl (fun acc s => insertValue acc (s.1.getD i 0)) [])

/-- Fuel-driven base-2 logarithm; with fuel at least `n` it computes
`Nat.log2 n` by structural recursion, so it reduces inside the kernel. -/
def log2Aux : Nat → Nat → Nat
  | 0, _ => 0
  | fuel + 1, n => if 2 ≤ n then log2Aux fuel (n / 2) + 1 else 0

/-- Rust `usize::ilog2` (floor base-2 logarithm; Rust panics on 0, which
`optimal_tree` never passes).  The floor-log bounds are proved below. -/
def log2 (n : Nat) : Nat := log2Aux n n

/-- The ideal-tree size computed by `optimal_tree` (lines 216-221):
`last_pot_2 = 1 << size.ilog2()`, `deep = (size - last_pot_2) * 2`,
`shallow = size - deep`, result `shallow * last_pot_2 + deep * last_pot_2 * 2`. -/
def totalSize (n : Nat) : Nat :=
  let lastPot2 := 2 ^ log2 n
  let deep := (n - lastPot2) * 2
  let shallow := n - deep
  shallow * lastPot2 + deep * lastPot2 * 2

/-- The candidate-test enumeration of `construct_trees_rec` (lines 264-280):
every (test id, observed value) pair whose id is not yet used this round and
whose partition has two non-empty sides. -/
def possibleTests (entries : List (Feasible α)) (tests : List (List Nat))
    (usedTests : List Test) : List (TestResult α) :=
  tests.enum.flatMap (fun is =>
    is.2.filterMap (fun v =>
      if (usedTests.find? (fun q => q.1 == is.1)).isSome then none
      else
        let res := fromTest entries (is.1, v)
        if res.correct.isEmpty || res.incorrect.isEmpty then none else some res))

/-- The heuristic ordering of `construct_trees_rec` (lines 284-286): sort by
`estimated_value` descending (Rust's `sort_by` is stable; so is insertion
sort). -/
def nodeOrder (a b : TestResult α) : Prop := estimatedValue b ≤ estimatedValue a

instance : DecidableRel (@nodeOrder α) := fun _ _ => Nat.decLe _ _

/-- Stable sort of candidate tests, best first. -/
def sortNodes (nodes : List (TestResult α)) : List (TestResult α) :=
  List.insertionSort nodeOrder nodes

/-- The quality comparator of `optimal_tree` (lines 239-245) as the "less or
equal" relation of the ascending sort: descending in max depth, then
descending in total depth (so the best tree ends up last and is popped). -/
def treeOrder (a b : BinaryTree α) : Prop :=
  b.maxDepth < a.maxDepth ∨ (b.maxDepth = a.maxDepth ∧ b.totalDepth ≤ a.totalDepth)

instance : DecidableRel (@treeOrder α) := fun a b => by
  unfold treeOrder; infer_instance

/-- Stable sort of result trees by quality, best last. -/
def sortTrees (trees : List (BinaryTree α)) : List (BinaryTree α) :=
  List.insertionSort treeOrder trees

/-- The running state of the solution loop of `construct_trees_rec`:
accumulated `solutions`, the `best_depth` bound, and whether the greedy
root-level `return` has fired. -/
structure SearchState (α : Type) where
  sols : List (BinaryTree α)
  best : Option Nat
  stop : Bool
deriving DecidableEq

/-- The round-consistency test of lines 352-360: some test appears in both
window test sets with different committed values. -/
def hasConflict (ct it : BinaryTree α) (subLevels : Nat) : Bool :=
  (BinaryTree.getTests subLevels ct).any (fun qc =>
    (BinaryTree.getTests subLevels it).any (fun qi => decide (qc.1 = qi.1 ∧ qc.2 ≠ qi.2)))

/-- Lines 367-371: a freshly combined branch is dropped when it is strictly
deeper than the best tree already found at this level. -/
def worseThanBest (best : Option Nat) (dep : Nat) : Bool :=
  match best with
  | some d => decide (d < dep)
  | none => false

/-- The pruning guard of lines 311-316: with bound `a`, a partition larger
than `1 << (a - 1 - current_level)` cannot beat the bound, so the test is
skipped.  Subtraction is `Nat` truncation; the reachability analysis below
shows it never underflows on reachable calls. -/
def abortSkip (abort : Option Nat) (currentLevel : Nat) (r : TestResult α) : Bool :=
  match abort with
  | some a =>
    decide (2 ^ (a - 1 - currentLevel) < r.correct.length) ||
    decide (2 ^ (a - 1 - currentLevel) < r.incorrect.length)
  | none => false

/-- Lines 393-402: record a kept tree, update `best_depth`, and raise the
greedy stop flag when the root-level tree attains `optimal_depth`. -/
def pushTree (currentLevel optimalDepth : Nat) (st : SearchState α)
    (tree : BinaryTree α) : SearchState α :=
  { sols := st.sols ++ [tree]
    best := some tree.maxDepth
    stop := decide (currentLevel = 0) && decide (tree.totalDepth = optimalDepth) }

/-- The body of the pair-combination loop (lines 352-403) for one
(correct tree, incorrect tree) pair. -/
def pairStep (solutionMap : List (List Nat × List α)) (tests : List (List Nat))
    (nodeTest : Test) (currentLevel testsPerRound optimalDepth subLevels : Nat)
    (ct : BinaryTree α) (st : SearchState α) (it : BinaryTree α) : SearchState α :=
  if st.stop then st
  else if hasConflict ct it subLevels then st
  else
    let branch0 : BinaryTree α := BinaryTree.Branch nodeTest ct it none
    if worseThanBest st.best branch0.maxDepth then st
    else if currentLevel % testsPerRound = 0 then
      match findCode solutionMap tests (BinaryTree.getTests (testsPerRound - 1) branch0) with
      | none => st
      | some c => pushTree currentLevel optimalDepth st (BinaryTree.Branch nodeTest ct it (some c))
    else pushTree currentLevel optimalDepth st branch0

/-- The double loop over all pairs of candidate subtrees (lines 352-404). -/
def pairLoop (solutionMap : List (List Nat × List α)) (tests : List (List Nat))
    (nodeTest : Test) (currentLevel testsPerRound optimalDepth subLevels : Nat)
    (correctTrees incorrectTrees : List (BinaryTree α)) (st : SearchState α) : SearchState α :=
  correctTrees.foldl (fun st1 ct =>
    incorrectTrees.foldl
      (pairStep solutionMap tests nodeTest currentLevel testsPerRound optimalDepth subLevels ct)
      st1) st

/-- The body of the per-test loop of `construct_trees_rec` (lines 292-405)
for one candidate test; the two child searches are passed in as functions so
that the definition sits outside the fuel recursion. -/
def nodeStep (recChild : List (Feasible α) → Option Nat → List Test → List (BinaryTree α))
    (optChild : List (Feasible α) → Option (BinaryTree α))
    (solutionMap : List (List Nat × List α)) (tests : List (List Nat))
    (currentLevel testsPerRound optimalDepth : Nat) (abortLevel : Option Nat)
    (usedTests : List Test) (st : SearchState α) (node : TestResult α) : SearchState α :=
  if st.stop then st
  else
    let nextSplits := if currentLevel % testsPerRound = testsPerRound - 1 then []
      else usedTests ++ [node.test]
    let abort := if currentLevel = 0 then st.best else abortLevel
    if abortSkip abort currentLevel node then st
    else
      let correctTrees := if currentLevel % testsPerRound = testsPerRound - 1
        then (optChild node.correct).toList
        else recChild node.correct abort nextSplits
      let incorrectTrees := if currentLevel % testsPerRound = testsPerRound - 1
        then (optChild node.incorrect).toList
        else recChild node.incorrect abort nextSplits
      pairLoop solutionMap tests node.test currentLevel testsPerRound optimalDepth
        (testsPerRound - currentLevel % testsPerRound - 1) correctTrees incorrectTrees st

mutual

/-- Fuel-indexed embedding of Rust `construct_trees_rec` (lines 250-409). -/
def constructTreesRecF : Nat → List (Feasible α) → List (List Nat) →
    List (List Nat × List α) → Nat → Option Nat → Nat → Nat → List Test →
    List (BinaryTree α)
  | 0, _, _, _, _, _, _, _, _ => []
  | fuel + 1, entries, tests, solutionMap, currentLevel, abortLevel, testsPerRound,
      optimalDepth, usedTests =>
    match entries with
    | [e] => [BinaryTree.Leaf e.2]
    | _ =>
      ((sortNodes (possibleTests entries tests usedTests)).foldl
        (nodeStep
          (fun b ab used =>
            constructTreesRecF fuel b tests solutionMap (currentLevel + 1) ab
              testsPerRound optimalDepth used)
          (fun b => optimalTreeF fuel b solutionMap testsPerRound)
          solutionMap tests currentLevel testsPerRound optimalDepth abortLevel usedTests)
        { sols := [], best := none, stop := false }).sols

/-- Fuel-indexed embedding of Rust `optimal_tree` (lines 200-248). -/
def optimalTreeF : Nat → List (Feasible α) → List (List Nat × List α) → Nat →
    Option (BinaryTree α)
  | 0, _, _, _ => none
  | fuel + 1, entries, solutionMap, testsPerRound =>
    match entries with
    | [] => none
    | _ =>
      (sortTrees (constructTreesRecF fuel entries (computeTests entries) solutionMap 0
        none testsPerRound (totalSize entries.length) [])).getLast?

end

/-- Rust `construct_trees_rec` with the fuel the recursion actually needs
(2n+1 suffices for a batch of n: every nested call either strictly shrinks
the batch or moves from `optimal_tree` to `construct_trees_rec` once). -/
def constructTreesRec (entries : List (Feasible α)) (tests : List (List Nat))
    (solutionMap : List (List Nat × List α)) (currentLevel : Nat)
    (abortLevel : Option Nat) (testsPerRound optimalDepth : Nat)
    (usedTests : List Test) : List (BinaryTree α) :=
  constructTreesRecF (2 * entries.length + 1) entries tests solutionMap currentLevel
    abortLevel testsPerRound optimalDepth usedTests

/-- Rust `optimal_tree`, the sole public entry point (`build_optimal_tree`
in the spec). -/
def optimalTree (entries : List (Feasible α)) (solutionMap : List (List Nat × List α))
    (testsPerRound : Nat) : Option (BinaryTree α) :=
  optimalTreeF (2 * entries.length + 2) entries solutionMap testsPerRound

/-- The Boolean split predicate of a test `(i, v)`: candidate `e` passes when
its outcome at test id `i` is `v` (line 165 of the source). -/
def passesTest (i v : Nat) (e : Feasible α) : Bool := decide (e.1.getD i 0 = v)

/-- The partition invariant of the spec (§3, §8): every branch carries a test
`(i, v)`; its `correct` subtree covers exactly the sub-batch passing the
test, the `incorrect` subtree exactly the complement, both non-empty, and so
on recursively down to singleton leaves. -/
inductive Partitions : List (Feasible α) → BinaryTree α → Prop where
  | leaf (e : Feasible α) : Partitions [e] (BinaryTree.Leaf e.2)
  | branch (entries : List (Feasible α)) (i v : Nat) (ct it : BinaryTree α) (code : Option α) :
      entries.filter (passesTest i v) ≠ [] →
      entries.filter (fun e => !passesTest i v e) ≠ [] →
      Partitions (entries.filter (passesTest i v)) ct →
      Partitions (entries.filter (fun e => !passesTest i v e)) it →
      Partitions entries (BinaryTree.Branch (i, v) ct it code)

/-- Round-window well-formedness of a tree produced at some level: every test
in the window has an id within the per-test value-set vector, avoids the ids
already claimed earlier in the round, and the window maps test ids to
committed values functionally. -/
def WindowInv (tests : List (List Nat)) (used : List Test) (w : Nat) (t : BinaryTree α) : Prop :=
  (∀ q ∈ BinaryTree.getTests w t, q.1 < tests.length ∧ ∀ u ∈ used, u.1 ≠ q.1) ∧
  (∀ q ∈ BinaryTree.getTests w t, ∀ q2 ∈ BinaryTree.getTests w t, q.1 = q2.1 → q.2 = q2.2)

/-- Construction-witness form of the round-code invariant: a branch whose
depth is a multiple of `testsPerRound` carries `some` code that is the first
catalogue entry of a probed outcome vector reproducing every committed value
of the round window; every other branch carries `none`. -/
def RoundCodesP (solutionMap : List (List Nat × List α)) (testsPerRound : Nat) :
    Nat → BinaryTree α → Prop
  | _, BinaryTree.Leaf _ => True
  | lvl, BinaryTree.Branch tst c i code =>
    (if lvl % testsPerRound = 0 then
      ∃ c0 p cs, code = some c0 ∧ mapGet solutionMap p = some cs ∧ cs.head? = some c0 ∧
        ∀ q ∈ BinaryTree.getTests (testsPerRound - 1) (BinaryTree.Branch tst c i code),
          p.getD q.1 0 = q.2
     else code = none) ∧
    RoundCodesP solutionMap testsPerRound (lvl + 1) c ∧
    RoundCodesP solutionMap testsPerRound (lvl + 1) i

/-- The round-code property claimed by the spec, relative to an outcome
function `out` for solutions: a branch at depth `d` carries `some` code iff
`d % testsPerRound = 0`, and any carried code's outcome vector reproduces
exactly the committed value of every test in the node's round window. -/
def RoundCodeSpec (out : α → List Nat) (testsPerRound : Nat) : Nat → BinaryTree α → Prop
  | _, BinaryTree.Leaf _ => True
  | lvl, BinaryTree.Branch tst c i code =>
    ((∃ c0, code = some c0) ↔ lvl % testsPerRound = 0) ∧
    (∀ c0, code = some c0 →
      ∀ q ∈ BinaryTree.getTests (testsPerRound - 1) (BinaryTree.Branch tst c i code),
        (out c0).getD q.1 0 = q.2) ∧
    RoundCodeSpec out testsPerRound (lvl + 1) c ∧
    RoundCodeSpec out testsPerRound (lvl + 1) i

/-- The catalogue is accurate for the outcome function `out`: every solution
stored under an outcome vector actually produces that vector. -/
def AccurateMap (out : α → List Nat) (m : List (List Nat × List α)) : Prop :=
  ∀ k cs, mapGet m k = some cs → ∀ x ∈ cs, out x = k

/-- Over-approximation of the configurations (batch, value sets, level,
effective abort bound, claimed tests) with which `construct_trees_rec` runs
when started from `optimal_tree`.  `root` covers the top call of
`optimal_tree` (line 224) and every fresh sub-search spawned at a round
boundary (lines 329, 344); its abort component is the effective bound used at
level 0, namely `best_depth`, which is `none` or the `max_depth` of an
already-constructed branch (line 394).  The two `child` constructors are the
mid-round recursive calls (lines 320, 335), guarded by the pruning test of
lines 311-316 exactly as in the source. -/
inductive ReachCall (tpr : Nat) :
    List (Feasible α) → List (List Nat) → Nat → Option Nat → List Test → Prop where
  | root (entries : List (Feasible α)) (ab : Option Nat) :
      (ab = none ∨ ∃ t : Test, ∃ c i : BinaryTree α, ∃ cd : Option α,
        ab = some (BinaryTree.maxDepth (BinaryTree.Branch t c i cd))) →
      ReachCall tpr entries (computeTests entries) 0 ab []
  | childCorrect (entries : List (Feasible α)) (tests : List (List Nat)) (lvl : Nat)
      (ab : Option Nat) (used : List Test) (node : TestResult α) :
      ReachCall tpr entries tests lvl ab used →
      node ∈ possibleTests entries tests used →
      abortSkip ab lvl node = false →
      lvl % tpr ≠ tpr - 1 →
      ReachCall tpr node.correct tests (lvl + 1) ab (used ++ [node.test])
  | childIncorrect (entries : List (Feasible α)) (tests : List (List Nat)) (lvl : Nat)
      (ab : Option Nat) (used : List Test) (node : TestResult α) :
      ReachCall tpr entries tests lvl ab used →
      node ∈ possibleTests entries tests used →
      abortSkip ab lvl node = false →
      lvl % tpr ≠ tpr - 1 →
      ReachCall tpr node.incorrect tests (lvl + 1) ab (used ++ [node.test])

/-- The shape of every tree appended by the pair loop (lines 352-403): built
from the given correct and incorrect candidate subtrees, which pass the
round-consistency check, with a round code resolved exactly at round-start
levels and `none` stored elsewhere. -/
def PairProduced (solutionMap : List (List Nat × List α)) (tests : List (List Nat))
    (nodeTest : Test) (lvl tpr : Nat) (ct it t : BinaryTree α) : Prop :=
  hasConflict ct it (tpr - lvl % tpr - 1) = false ∧
  ((lvl % tpr = 0 ∧ ∃ c, findCode solutionMap tests
      (BinaryTree.getTests (tpr - 1) (BinaryTree.Branch nodeTest ct it none)) = some c ∧
      t = BinaryTree.Branch nodeTest ct it (some c)) ∨
   (¬ lvl % tpr = 0 ∧ t = BinaryTree.Branch nodeTest ct it none))

/-- How every member of `constructTreesRecF (fuel+1) ...` arises: either the
singleton-batch leaf (line 261), or a branch over some viable candidate test,
whose subtrees come from the mid-round recursive call (lines 320, 335) or the
round-boundary sub-search (lines 329, 344), combined by the pair loop. -/
def RecProduced (fuel : Nat) (entries : List (Feasible α)) (tests : List (List Nat))
    (solutionMap : List (List Nat × List α)) (lvl tpr optd : Nat) (used : List Test)
    (t : BinaryTree α) : Prop :=
  (∃ e : Feasible α, entries = [e] ∧ t = BinaryTree.Leaf e.2) ∨
  ∃ node ∈ possibleTests entries tests used, ∃ ab2 : Option Nat, ∃ ct it : BinaryTree α,
    (if lvl % tpr = tpr - 1 then optimalTreeF fuel node.correct solutionMap tpr = some ct
      else ct ∈ constructTreesRecF fuel node.correct tests solutionMap (lvl + 1) ab2 tpr optd
        (used ++ [node.test])) ∧
    (if lvl % tpr = tpr - 1 then optimalTreeF fuel node.incorrect solutionMap tpr = some it
      else it ∈ constructTreesRecF fuel node.incorrect tests solutionMap (lvl + 1) ab2 tpr optd
        (used ++ [node.test])) ∧
    PairProduced solutionMap tests node.test lvl tpr ct it t

/-- Concrete data: two candidates separated by one test. -/
def exEntries2 : List (Feasible Nat) := [([0], 10), ([1], 11)]

/-- Catalogue for `exEntries2`: both outcome vectors are present. -/
def exMap2 : List (List Nat × List Nat) := [([0], [10]), ([1], [11])]

/-- Outcome function matching `exMap2`: solution `10 + x` produces `[x]`. -/
def exOut (x : Nat) : List Nat := [x - 10]

/-- Concrete data: four candidates over two tests; candidates `102`, `103`
differ only in test 1, candidates `100`, `101` differ only in test 0. -/
def exEntries8 : List (Feasible Nat) :=
  [([0, 0], 100), ([1, 0], 101), ([2, 0], 102), ([2, 1], 103)]

/-- Catalogue for `exEntries8`: exactly the four candidate vectors. -/
def exMap8 : List (List Nat × List Nat) :=
  [([0, 0], [100]), ([1, 0], [101]), ([2, 0], [102]), ([2, 1], [103])]

/-- A two-leaf branch, the smallest tree refuting the summed-depth reading of
`total_depth`. -/
def exTree2 : BinaryTree Nat :=
  BinaryTree.Branch (0, 0) (BinaryTree.Leaf 0) (BinaryTree.Leaf 1) none

/-! ## Basic lemmas about the small operations -/

theorem log2Aux_bounds : ∀ fuel n : Nat, n ≤ fuel → 1 ≤ n →
    2 ^ log2Aux fuel n ≤ n ∧ n < 2 ^ (log2Aux fuel n + 1) := by
  intro fuel
  induction fuel with
  | zero => intro n h h1; omega
  | succ f ih =>
    intro n h h1
    by_cases h2 : 2 ≤ n
    · have hd : n / 2 ≤ f := by omega
      have hd1 : 1 ≤ n / 2 := by omega
      obtain ⟨lo, hi⟩ := ih (n / 2) hd hd1
      simp only [log2Aux, if_pos h2]
      constructor
      · calc 2 ^ (log2Aux f (n / 2) + 1) = 2 * 2 ^ log2Aux f (n / 2) := by ring
          _ ≤ 2 * (n / 2) := by omega
          _ ≤ n := by omega
      · have : n / 2 + 1 ≤ 2 ^ (log2Aux f (n / 2) + 1) := hi
        calc n < 2 * (n / 2) + 2 := by omega
          _ ≤ 2 * 2 ^ (log2Aux f (n / 2) + 1) := by omega
          _ = 2 ^ (log2Aux f (n / 2) + 1 + 1) := by ring
    · have hn : n = 1 := by omega
      subst hn
      simp [log2Aux]

theorem log2_bounds (n : Nat) (h : 1 ≤ n) : 2 ^ log2 n ≤ n ∧ n < 2 ^ (log2 n + 1) :=
  log2Aux_bounds n n le_rfl h

theorem log2_pos (n : Nat) (h : 2 ≤ n) : 1 ≤ log2 n := by
  by_contra hc
  have h0 : log2 n = 0 := by omega
  have := (log2_bounds n (by omega)).2
  rw [h0] at this
  omega

/-- The early-exit bound of `optimal_tree` always strictly exceeds the number
of branch nodes of any tree over the batch: for `n ≥ 2`,
`totalSize n ≥ 2 * n > n - 1`. -/
theorem totalSize_gt (n : Nat) (h : 2 ≤ n) : n - 1 < totalSize n := by
  have hp : 2 ≤ 2 ^ log2 n := by
    calc (2 : Nat) = 2 ^ 1 := by norm_num
      _ ≤ 2 ^ log2 n := Nat.pow_le_pow_right (by norm_num) (log2_pos n h)
  have hub : n < 2 * 2 ^ log2 n := by
    have h1 := (log2_bounds n (by omega)).2
    have h2 : 2 ^ (log2 n + 1) = 2 * 2 ^ log2 n := by ring
    omega
  have hts : totalSize n =
      (n - (n - 2 ^ log2 n) * 2) * 2 ^ log2 n + (n - 2 ^ log2 n) * 2 * 2 ^ log2 n * 2 := rfl
  rw [hts]
  set p := 2 ^ log2 n with hpd
  set d := (n - p) * 2 with hdd
  have hdn : d ≤ n := by omega
  set s := n - d with hsd
  have hsum : s + d = n := by omega
  have k1 : s * 2 ≤ s * p := Nat.mul_le_mul le_rfl hp
  have k2 : d * 2 ≤ d * p := Nat.mul_le_mul le_rfl hp
  have k3 : d * p ≤ d * p * 2 := le_mul_of_one_le_right (Nat.zero_le _) (by norm_num)
  have hX : n ≤ s * p + d * p * 2 := by
    calc n = s + d := hsum.symm
      _ ≤ s * 2 + d * 2 := by omega
      _ ≤ s * p + d * p := Nat.add_le_add k1 k2
      _ ≤ s * p + d * p * 2 := Nat.add_le_add le_rfl k3
  exact lt_of_lt_of_le (by omega : n - 1 < n) hX

theorem fromTestAux_fst (i v : Nat) (l : List (Feasible α)) :
    (fromTestAux i v l).1 = l.filter (passesTest i v) := by
  induction l with
  | nil => rfl
  | cons e rest ih =>
    by_cases h : e.1.getD i 0 = v <;>
      simp only [fromTestAux, List.filter_cons, passesTest, h, if_pos, if_neg,
        decide_True, decide_False, ih, decide_eq_true_eq, if_true, if_false,
        not_false_eq_true, ite_true, ite_false, Bool.false_eq_true]

theorem fromTestAux_snd (i v : Nat) (l : List (Feasible α)) :
    (fromTestAux i v l).2 = l.filter (fun e => !passesTest i v e) := by
  induction l with
  | nil => rfl
  | cons e rest ih =>
    by_cases h : e.1.getD i 0 = v <;>
      simp only [fromTestAux, List.filter_cons, passesTest, h, if_pos, if_neg,
        decide_True, decide_False, ih, decide_eq_true_eq, if_true, if_false,
        not_false_eq_true, ite_true, ite_false, Bool.not_true, Bool.not_false, Bool.false_eq_true]

theorem fromTest_correct (entries : List (Feasible α)) (i v : Nat) :
    (fromTest entries (i, v)).correct = entries.filter (passesTest i v) :=
  fromTestAux_fst i v entries

theorem fromTest_incorrect (entries : List (Feasible α)) (i v : Nat) :
    (fromTest entries (i, v)).incorrect = entries.filter (fun e => !passesTest i v e) :=
  fromTestAux_snd i v entries

theorem filter_not_length (p : α → Bool) (l : List α) :
    (l.filter p).length + (l.filter (fun x => !p x)).length = l.length := by
  have h := (List.filter_append_perm p l).length_eq
  simpa using h

theorem fromTest_length (entries : List (Feasible α)) (i v : Nat) :
    (fromTest entries (i, v)).correct.length + (fromTest entries (i, v)).incorrect.length
      = entries.length := by
  rw [fromTest_correct, fromTest_incorrect]
  exact filter_not_length _ _

theorem possibleTests_mem {entries : List (Feasible α)} {tests : List (List Nat)}
    {used : List Test} {node : TestResult α} (h : node ∈ possibleTests entries tests used) :
    ∃ i v : Nat, node = fromTest entries (i, v) ∧ i < tests.length ∧
      (∀ q ∈ used, q.1 ≠ i) ∧ node.correct ≠ [] ∧ node.incorrect ≠ [] := by
  unfold possibleTests at h
  rw [List.mem_flatMap] at h
  obtain ⟨is, his, h⟩ := h
  obtain ⟨i, s⟩ := is
  rw [List.mem_filterMap] at h
  obtain ⟨v, _, h⟩ := h
  simp only at h
  by_cases hused : (used.find? (fun q => q.1 == i)).isSome
  · rw [if_pos hused] at h
    exact absurd h (by simp)
  · rw [if_neg hused] at h
    by_cases hemp : (fromTest entries (i, v)).correct.isEmpty
      || (fromTest entries (i, v)).incorrect.isEmpty
    · rw [if_pos hemp] at h
      exact absurd h (by simp)
    · rw [if_neg hemp] at h
      obtain rfl : fromTest entries (i, v) = node := by simpa using h
      refine ⟨i, v, rfl, (List.mem_enum his).1, ?_, ?_, ?_⟩
      · intro q hq
        have hnone : used.find? (fun q => q.1 == i) = none := by
          cases hfind : used.find? (fun q => q.1 == i) with
          | none => rfl
          | some x => rw [hfind] at hused; simp at hused
        have := List.find?_eq_none.mp hnone q hq
        simpa using this
      · intro hc
        apply hemp
        simp [hc]
      · intro hc
        apply hemp
        simp [hc]

theorem mem_insertTest {acc : List Test} {t x : Test} :
    x ∈ BinaryTree.insertTest acc t ↔ x ∈ acc ∨ x = t := by
  unfold BinaryTree.insertTest
  by_cases h : t ∈ acc
  · rw [if_pos h]
    constructor
    · exact Or.inl
    · rintro (hx | rfl)
      · exact hx
      · exact h
  · rw [if_neg h]
    simp

theorem mem_foldl_insertTest (l : List Test) :
    ∀ acc x, x ∈ l.foldl BinaryTree.insertTest acc ↔ x ∈ acc ∨ x ∈ l := by
  induction l with
  | nil => simp
  | cons y rest ih =>
    intro acc x
    rw [List.foldl_cons, ih, mem_insertTest]
    simp only [List.mem_cons]
    tauto

theorem mem_getTests_branch {w : Nat} {t : Test} {c i : BinaryTree α}
    {code : Option α} {x : Test} :
    x ∈ BinaryTree.getTests w (BinaryTree.Branch t c i code) ↔
      x = t ∨ (0 < w ∧
        (x ∈ BinaryTree.getTests (w - 1) c ∨ x ∈ BinaryTree.getTests (w - 1) i)) := by
  by_cases hw : 0 < w
  · simp only [BinaryTree.getTests, eq_true hw, if_true, mem_foldl_insertTest,
      List.mem_append, List.mem_singleton, hw, true_and]
  · simp only [BinaryTree.getTests, eq_false hw, if_false, List.mem_singleton, hw,
      false_and, or_false]

theorem getTests_zero {t : Test} {c i : BinaryTree α} {code : Option α} :
    BinaryTree.getTests 0 (BinaryTree.Branch t c i code) = [t] := by
  simp [BinaryTree.getTests]

theorem getTests_code_irrel (w : Nat) (t : Test) (c i : BinaryTree α) (cd cd2 : Option α) :
    BinaryTree.getTests w (BinaryTree.Branch t c i cd)
      = BinaryTree.getTests w (BinaryTree.Branch t c i cd2) := by
  by_cases hw : 0 < w <;> simp [BinaryTree.getTests, hw]

theorem getPermutations_spec {input : List (List Nat)} {p : List Nat}
    (h : p ∈ getPermutations input) :
    p.length = input.length ∧ ∀ i, i < input.length → p.getD i 0 ∈ input.getD i [] := by
  induction input generalizing p with
  | nil =>
    simp only [getPermutations, List.mem_singleton] at h
    subst h
    simp
  | cons s rest ih =>
    simp only [getPermutations, List.mem_flatMap, List.mem_map] at h
    obtain ⟨v, hv, q, hq, rfl⟩ := h
    obtain ⟨hlen, hall⟩ := ih hq
    refine ⟨by simp [hlen], ?_⟩
    intro i hi
    cases i with
    | zero => simpa using hv
    | succ j =>
      simp only [List.getD_cons_succ]
      exact hall j (by simpa using hi)

theorem overrideResults_length (window : List Test) :
    ∀ tests : List (List Nat), (overrideResults tests window).length = tests.length := by
  induction window with
  | nil => intro tests; rfl
  | cons b rest ih =>
    intro tests
    show (overrideResults (tests.set b.1 [b.2]) rest).length = tests.length
    rw [ih, List.length_set]

theorem overrideResults_getD {q : Test} (window : List Test)
    (hfun : ∀ b ∈ window, b.1 = q.1 → b.2 = q.2) :
    ∀ tests : List (List Nat), (q ∈ window ∨ tests.getD q.1 [] = [q.2]) →
      q.1 < tests.length → (overrideResults tests window).getD q.1 [] = [q.2] := by
  induction window with
  | nil =>
    intro tests hq _
    rcases hq with hq | hq
    · exact absurd hq (List.not_mem_nil q)
    · exact hq
  | cons b rest ih =>
    intro tests hq hlt
    have hstep : overrideResults tests (b :: rest) = overrideResults (tests.set b.1 [b.2]) rest := rfl
    rw [hstep]
    have hlen : q.1 < (tests.set b.1 [b.2]).length := by rw [List.length_set]; exact hlt
    refine ih (fun x hx hx1 => hfun x (List.mem_cons_of_mem b hx) hx1) _ ?_ hlen
    by_cases hmem : q ∈ rest
    · exact Or.inl hmem
    · right
      by_cases hb : b.1 = q.1
      · have hb2 : b.2 = q.2 := hfun b (List.mem_cons_self b rest) hb
        rw [← hb]
        rw [List.getD_eq_getElem _ _ (by rw [List.length_set]; rw [hb]; exact hlt)]
        rw [List.getElem_set_self]
        rw [hb2]
      · rcases hq with hq | hq
        · rcases List.mem_cons.mp hq with rfl | hq2
          · exact absurd rfl hb
          · exact absurd hq2 hmem
        · rw [List.getD_eq_getElem _ _ hlen]
          rw [List.getElem_set_ne hb]
          rw [List.getD_eq_getElem _ _ hlt] at hq
          exact hq

theorem mapGet_eq_some {m : List (List Nat × List α)} {k : List Nat} {cs : List α}
    (h : mapGet m k = some cs) : (k, cs) ∈ m := by
  unfold mapGet at h
  cases hf : m.find? (fun q => q.1 == k) with
  | none => rw [hf] at h; exact absurd h (by simp)
  | some q =>
    rw [hf] at h
    have h1 := List.mem_of_find?_eq_some hf
    have h2 := List.find?_some hf
    have hk : q.1 = k := by simpa using h2
    have hcs : q.2 = cs := by simpa using h
    obtain ⟨a, b⟩ := q
    simp only at hk hcs
    subst hk
    subst hcs
    exact h1

theorem mem_sortNodes {l : List (TestResult α)} {x : TestResult α} :
    x ∈ sortNodes l ↔ x ∈ l :=
  List.mem_insertionSort nodeOrder

theorem mem_sortTrees {l : List (BinaryTree α)} {x : BinaryTree α} :
    x ∈ sortTrees l ↔ x ∈ l :=
  List.mem_insertionSort treeOrder

theorem sortTrees_eq_nil {l : List (BinaryTree α)} :
    sortTrees l = [] ↔ l = [] := by
  constructor
  · intro h
    have := (List.perm_insertionSort treeOrder l).length_eq
    rw [show List.insertionSort treeOrder l = sortTrees l from rfl, h] at this
    exact List.length_eq_zero.mp this.symm
  · intro h
    subst h
    rfl

/-! ## Membership characterization of the search loops -/

theorem pairStep_sols_sub {solutionMap : List (List Nat × List α)} {tests : List (List Nat)}
    {nodeTest : Test} {lvl tpr optd sub : Nat} {ct it : BinaryTree α} {st : SearchState α}
    {t : BinaryTree α}
    (h : t ∈ (pairStep solutionMap tests nodeTest lvl tpr optd sub ct st it).sols) :
    t ∈ st.sols ∨
      (hasConflict ct it sub = false ∧
        ((lvl % tpr = 0 ∧ ∃ c, findCode solutionMap tests
            (BinaryTree.getTests (tpr - 1) (BinaryTree.Branch nodeTest ct it none)) = some c ∧
          t = BinaryTree.Branch nodeTest ct it (some c)) ∨
         (¬ lvl % tpr = 0 ∧ t = BinaryTree.Branch nodeTest ct it none))) := by
  simp only [pairStep] at h
  by_cases h1 : st.stop = true
  · rw [if_pos h1] at h
    exact Or.inl h
  rw [if_neg h1] at h
  by_cases h2 : hasConflict ct it sub = true
  · rw [if_pos h2] at h
    exact Or.inl h
  rw [if_neg h2] at h
  by_cases h3 : worseThanBest st.best
      (BinaryTree.maxDepth (BinaryTree.Branch nodeTest ct it none)) = true
  · rw [if_pos h3] at h
    exact Or.inl h
  rw [if_neg h3] at h
  by_cases h4 : lvl % tpr = 0
  · rw [if_pos h4] at h
    cases hf : findCode solutionMap tests
        (BinaryTree.getTests (tpr - 1) (BinaryTree.Branch nodeTest ct it none)) with
    | none =>
      rw [hf] at h
      exact Or.inl h
    | some c =>
      rw [hf] at h
      unfold pushTree at h
      rcases List.mem_append.mp h with hold | hnew
      · exact Or.inl hold
      · right
        refine ⟨by simpa using h2, Or.inl ⟨h4, c, rfl, ?_⟩⟩
        simpa using hnew
  · rw [if_neg h4] at h
    unfold pushTree at h
    rcases List.mem_append.mp h with hold | hnew
    · exact Or.inl hold
    · right
      exact ⟨by simpa using h2, Or.inr ⟨h4, by simpa using hnew⟩⟩

theorem foldl_pairStep_sols_sub {solutionMap : List (List Nat × List α)}
    {tests : List (List Nat)} {nodeTest : Test} {lvl tpr optd sub : Nat} {ct : BinaryTree α}
    (its : List (BinaryTree α)) :
    ∀ st : SearchState α, ∀ t ∈
      (its.foldl (pairStep solutionMap tests nodeTest lvl tpr optd sub ct) st).sols,
      t ∈ st.sols ∨ ∃ it ∈ its,
        (hasConflict ct it sub = false ∧
          ((lvl % tpr = 0 ∧ ∃ c, findCode solutionMap tests
              (BinaryTree.getTests (tpr - 1) (BinaryTree.Branch nodeTest ct it none)) = some c ∧
            t = BinaryTree.Branch nodeTest ct it (some c)) ∨
           (¬ lvl % tpr = 0 ∧ t = BinaryTree.Branch nodeTest ct it none))) := by
  induction its with
  | nil =>
    intro st t ht
    exact Or.inl ht
  | cons it rest ih =>
    intro st t ht
    rw [List.foldl_cons] at ht
    rcases ih _ t ht with hin | ⟨it2, hit2, hrest⟩
    · rcases pairStep_sols_sub hin with hl | hr
      · exact Or.inl hl
      · exact Or.inr ⟨it, List.mem_cons_self _ _, hr⟩
    · exact Or.inr ⟨it2, List.mem_cons_of_mem _ hit2, hrest⟩

theorem pairLoop_sols_sub {solutionMap : List (List Nat × List α)} {tests : List (List Nat)}
    {nodeTest : Test} {lvl tpr optd sub : Nat}
    (cts its : List (BinaryTree α)) :
    ∀ st : SearchState α, ∀ t ∈
      (pairLoop solutionMap tests nodeTest lvl tpr optd sub cts its st).sols,
      t ∈ st.sols ∨ ∃ ct ∈ cts, ∃ it ∈ its,
        (hasConflict ct it sub = false ∧
          ((lvl % tpr = 0 ∧ ∃ c, findCode solutionMap tests
              (BinaryTree.getTests (tpr - 1) (BinaryTree.Branch nodeTest ct it none)) = some c ∧
            t = BinaryTree.Branch nodeTest ct it (some c)) ∨
           (¬ lvl % tpr = 0 ∧ t = BinaryTree.Branch nodeTest ct it none))) := by
  unfold pairLoop
  induction cts with
  | nil =>
    intro st t ht
    exact Or.inl ht
  | cons ct rest ih =>
    intro st t ht
    rw [List.foldl_cons] at ht
    rcases ih _ t ht with hin | ⟨ct2, hct2, hrest⟩
    · rcases foldl_pairStep_sols_sub its st t hin with hl | ⟨it, hit, hr⟩
      · exact Or.inl hl
      · exact Or.inr ⟨ct, List.mem_cons_self _ _, it, hit, hr⟩
    · exact Or.inr ⟨ct2, List.mem_cons_of_mem _ hct2, hrest⟩

theorem nodeStep_sols_sub {recChild : List (Feasible α) → Option Nat → List Test → List (BinaryTree α)}
    {optChild : List (Feasible α) → Option (BinaryTree α)}
    {solutionMap : List (List Nat × List α)} {tests : List (List Nat)}
    {lvl tpr optd : Nat} {ab : Option Nat} {used : List Test}
    {st : SearchState α} {node : TestResult α} {t : BinaryTree α}
    (h : t ∈ (nodeStep recChild optChild solutionMap tests lvl tpr optd ab used st node).sols) :
    t ∈ st.sols ∨ ∃ ab2 : Option Nat, ∃ ct it : BinaryTree α,
      (if lvl % tpr = tpr - 1 then optChild node.correct = some ct
        else ct ∈ recChild node.correct ab2 (used ++ [node.test])) ∧
      (if lvl % tpr = tpr - 1 then optChild node.incorrect = some it
        else it ∈ recChild node.incorrect ab2 (used ++ [node.test])) ∧
      PairProduced solutionMap tests node.test lvl tpr ct it t := by
  simp only [nodeStep] at h
  by_cases h1 : st.stop = true
  · rw [if_pos h1] at h
    exact Or.inl h
  rw [if_neg h1] at h
  by_cases h2 : abortSkip (if lvl = 0 then st.best else ab) lvl node = true
  · rw [if_pos h2] at h
    exact Or.inl h
  rw [if_neg h2] at h
  by_cases hb : lvl % tpr = tpr - 1
  · simp only [if_pos hb] at h
    rcases pairLoop_sols_sub _ _ _ _ h with hin | ⟨ct, hct, it, hit, hshape⟩
    · exact Or.inl hin
    · right
      refine ⟨if lvl = 0 then st.best else ab, ct, it, ?_, ?_, ?_⟩
      · rw [if_pos hb]
        exact Option.mem_def.mp (Option.mem_toList.mp hct)
      · rw [if_pos hb]
        exact Option.mem_def.mp (Option.mem_toList.mp hit)
      · exact hshape
  · simp only [if_neg hb] at h
    rcases pairLoop_sols_sub _ _ _ _ h with hin | ⟨ct, hct, it, hit, hshape⟩
    · exact Or.inl hin
    · right
      refine ⟨if lvl = 0 then st.best else ab, ct, it, ?_, ?_, ?_⟩
      · rw [if_neg hb]
        simpa using hct
      · rw [if_neg hb]
        simpa using hit
      · exact hshape

theorem foldl_nodeStep_sols_sub
    {recChild : List (Feasible α) → Option Nat → List Test → List (BinaryTree α)}
    {optChild : List (Feasible α) → Option (BinaryTree α)}
    {solutionMap : List (List Nat × List α)} {tests : List (List Nat)}
    {lvl tpr optd : Nat} {ab : Option Nat} {used : List Test}
    (nodes : List (TestResult α)) :
    ∀ st : SearchState α, ∀ t ∈
      (nodes.foldl (nodeStep recChild optChild solutionMap tests lvl tpr optd ab used) st).sols,
      t ∈ st.sols ∨ ∃ node ∈ nodes, ∃ ab2 : Option Nat, ∃ ct it : BinaryTree α,
        (if lvl % tpr = tpr - 1 then optChild node.correct = some ct
          else ct ∈ recChild node.correct ab2 (used ++ [node.test])) ∧
        (if lvl % tpr = tpr - 1 then optChild node.incorrect = some it
          else it ∈ recChild node.incorrect ab2 (used ++ [node.test])) ∧
        PairProduced solutionMap tests node.test lvl tpr ct it t := by
  induction nodes with
  | nil =>
    intro st t ht
    exact Or.inl ht
  | cons node rest ih =>
    intro st t ht
    rw [List.foldl_cons] at ht
    rcases ih _ t ht with hin | ⟨node2, hnode2, hrest⟩
    · rcases nodeStep_sols_sub hin with hl | ⟨ab2, ct, it, hr⟩
      · exact Or.inl hl
      · exact Or.inr ⟨node, List.mem_cons_self _ _, ab2, ct, it, hr⟩
    · exact Or.inr ⟨node2, List.mem_cons_of_mem _ hnode2, hrest⟩

theorem mem_constructTreesRecF {fuel : Nat} {entries : List (Feasible α)}
    {tests : List (List Nat)} {solutionMap : List (List Nat × List α)}
    {lvl : Nat} {ab : Option Nat} {tpr optd : Nat} {used : List Test} {t : BinaryTree α}
    (h : t ∈ constructTreesRecF (fuel + 1) entries tests solutionMap lvl ab tpr optd used) :
    RecProduced fuel entries tests solutionMap lvl tpr optd used t := by
  unfold RecProduced
  match entries with
  | [e] =>
    left
    refine ⟨e, rfl, ?_⟩
    simp only [constructTreesRecF, List.mem_singleton] at h
    exact h
  | [] =>
    simp only [constructTreesRecF] at h
    rcases foldl_nodeStep_sols_sub _ _ _ h with hin | ⟨node, hnode, rest⟩
    · exact absurd hin (by simp)
    · exact Or.inr ⟨node, mem_sortNodes.mp hnode, rest⟩
  | e1 :: e2 :: erest =>
    simp only [constructTreesRecF] at h
    rcases foldl_nodeStep_sols_sub _ _ _ h with hin | ⟨node, hnode, rest⟩
    · exact absurd hin (by simp)
    · exact Or.inr ⟨node, mem_sortNodes.mp hnode, rest⟩

theorem optimalTreeF_eq_some {fuel : Nat} {entries : List (Feasible α)}
    {solutionMap : List (List Nat × List α)} {tpr : Nat} {t : BinaryTree α}
    (h : optimalTreeF (fuel + 1) entries solutionMap tpr = some t) :
    entries ≠ [] ∧ t ∈ constructTreesRecF fuel entries (computeTests entries) solutionMap 0
      none tpr (totalSize entries.length) [] := by
  match entries with
  | [] => exact absurd h (by simp [optimalTreeF])
  | e1 :: erest =>
    refine ⟨by simp, ?_⟩
    simp only [optimalTreeF] at h
    exact mem_sortTrees.mp (List.mem_of_mem_getLast? (Option.mem_def.mpr h))

/-! ## The partition invariant of the search -/

theorem search_partitions : ∀ fuel : Nat,
    (∀ (entries : List (Feasible α)) (tests : List (List Nat))
      (solutionMap : List (List Nat × List α)) (lvl : Nat) (ab : Option Nat)
      (tpr optd : Nat) (used : List Test) (t : BinaryTree α),
      t ∈ constructTreesRecF fuel entries tests solutionMap lvl ab tpr optd used →
        Partitions entries t) ∧
    (∀ (entries : List (Feasible α)) (solutionMap : List (List Nat × List α))
      (tpr : Nat) (t : BinaryTree α),
      optimalTreeF fuel entries solutionMap tpr = some t → Partitions entries t) := by
  intro fuel
  induction fuel with
  | zero =>
    constructor
    · intro entries tests M lvl ab tpr optd used t ht
      exact absurd ht (by simp [constructTreesRecF])
    · intro entries M tpr t ht
      exact absurd ht (by simp [optimalTreeF])
  | succ fuel ih =>
    constructor
    · intro entries tests M lvl ab tpr optd used t ht
      rcases mem_constructTreesRecF ht with ⟨e, rfl, rfl⟩ |
        ⟨node, hnode, ab2, ct, it, hct, hit, hpair⟩
      · exact Partitions.leaf e
      · obtain ⟨i, v, hnodeEq, hi, hused, hcne, hine⟩ := possibleTests_mem hnode
        have hctP : Partitions node.correct ct := by
          by_cases hb : lvl % tpr = tpr - 1
          · rw [if_pos hb] at hct
            exact ih.2 _ _ _ _ hct
          · rw [if_neg hb] at hct
            exact ih.1 _ _ _ _ _ _ _ _ _ hct
        have hitP : Partitions node.incorrect it := by
          by_cases hb : lvl % tpr = tpr - 1
          · rw [if_pos hb] at hit
            exact ih.2 _ _ _ _ hit
          · rw [if_neg hb] at hit
            exact ih.1 _ _ _ _ _ _ _ _ _ hit
        have htest : node.test = (i, v) := by rw [hnodeEq]; rfl
        have hcorr : node.correct = entries.filter (passesTest i v) := by
          rw [hnodeEq]
          exact fromTest_correct entries i v
        have hincorr : node.incorrect = entries.filter (fun e => !passesTest i v e) := by
          rw [hnodeEq]
          exact fromTest_incorrect entries i v
        have hbr : ∀ code : Option α,
            Partitions entries (BinaryTree.Branch node.test ct it code) := by
          intro code
          rw [htest]
          exact Partitions.branch entries i v ct it code
            (hcorr ▸ hcne) (hincorr ▸ hine) (hcorr ▸ hctP) (hincorr ▸ hitP)
        rcases hpair.2 with ⟨h0, c, hfc, rfl⟩ | ⟨h0, rfl⟩
        · exact hbr (some c)
        · exact hbr none
    · intro entries M tpr t ht
      obtain ⟨hne, hmem⟩ := optimalTreeF_eq_some ht
      exact ih.1 _ _ _ _ _ _ _ _ _ hmem

/-- Every tree in the result set of `construct_trees_rec` partitions its
batch recursively. -/
theorem constructTreesRec_partitions {entries : List (Feasible α)}
    {tests : List (List Nat)} {solutionMap : List (List Nat × List α)}
    {lvl : Nat} {ab : Option Nat} {tpr optd : Nat} {used : List Test} {t : BinaryTree α}
    (h : t ∈ constructTreesRec entries tests solutionMap lvl ab tpr optd used) :
    Partitions entries t :=
  (search_partitions _).1 _ _ _ _ _ _ _ _ _ h

/-- Every tree returned by `optimal_tree` partitions its batch recursively. -/
theorem optimalTree_partitions {entries : List (Feasible α)}
    {solutionMap : List (List Nat × List α)} {tpr : Nat} {t : BinaryTree α}
    (h : optimalTree entries solutionMap tpr = some t) : Partitions entries t :=
  (search_partitions _).2 _ _ _ _ h

/-! ## Structural consequences -/

theorem partitions_leaves_perm {B : List (Feasible α)} {t : BinaryTree α}
    (h : Partitions B t) : (BinaryTree.leavesList t).Perm (B.map Prod.snd) := by
  induction h with
  | leaf e => simp [BinaryTree.leavesList]
  | branch entries i v ct it code hc hi hcP hiP ihc ihi =>
    have h1 : BinaryTree.leavesList (BinaryTree.Branch (i, v) ct it code)
        = BinaryTree.leavesList ct ++ BinaryTree.leavesList it := rfl
    rw [h1]
    have h2 := ihc.append ihi
    have h3 : (entries.filter (passesTest i v)).map Prod.snd ++
        (entries.filter (fun e => !passesTest i v e)).map Prod.snd
        = ((entries.filter (passesTest i v)) ++
            (entries.filter (fun e => !passesTest i v e))).map Prod.snd := by
      rw [List.map_append]
    have h4 := (List.filter_append_perm (passesTest i v) entries).map Prod.snd
    refine h2.trans ?_
    rw [h3]
    exact h4

theorem partitions_leaves_length {B : List (Feasible α)} {t : BinaryTree α}
    (h : Partitions B t) : (BinaryTree.leavesList t).length = B.length := by
  have h1 := (partitions_leaves_perm h).length_eq
  simpa using h1

theorem totalDepth_add_one_eq_leaves (t : BinaryTree α) :
    BinaryTree.totalDepth t + 1 = (BinaryTree.leavesList t).length := by
  induction t with
  | Leaf s => rfl
  | Branch tst c i code ihc ihi =>
    simp only [BinaryTree.totalDepth, BinaryTree.leavesList, List.length_append]
    omega

theorem size_eq_two_totalDepth_add_one (t : BinaryTree α) :
    BinaryTree.size t = 2 * BinaryTree.totalDepth t + 1 := by
  induction t with
  | Leaf s => rfl
  | Branch tst c i code ihc ihi =>
    simp only [BinaryTree.size, BinaryTree.totalDepth, ihc, ihi]
    omega

theorem leaves_le_pow_maxDepth (t : BinaryTree α) :
    (BinaryTree.leavesList t).length ≤ 2 ^ BinaryTree.maxDepth t := by
  induction t with
  | Leaf s => simp [BinaryTree.leavesList, BinaryTree.maxDepth]
  | Branch tst c i code ihc ihi =>
    have h1 : 2 ^ BinaryTree.maxDepth c
        ≤ 2 ^ max (BinaryTree.maxDepth c) (BinaryTree.maxDepth i) :=
      Nat.pow_le_pow_right (by norm_num) (le_max_left _ _)
    have h2 : 2 ^ BinaryTree.maxDepth i
        ≤ 2 ^ max (BinaryTree.maxDepth c) (BinaryTree.maxDepth i) :=
      Nat.pow_le_pow_right (by norm_num) (le_max_right _ _)
    have h3 : 2 ^ (1 + max (BinaryTree.maxDepth c) (BinaryTree.maxDepth i))
        = 2 * 2 ^ max (BinaryTree.maxDepth c) (BinaryTree.maxDepth i) := by
      rw [pow_add]
      ring
    simp only [BinaryTree.leavesList, BinaryTree.maxDepth, List.length_append, h3]
    omega

theorem partitions_totalDepth {B : List (Feasible α)} {t : BinaryTree α}
    (h : Partitions B t) : BinaryTree.totalDepth t = B.length - 1 := by
  have h1 := totalDepth_add_one_eq_leaves t
  have h2 := partitions_leaves_length h
  omega

theorem partitions_findLeaf {B : List (Feasible α)} {t : BinaryTree α}
    (h : Partitions B t) : ∀ e ∈ B, BinaryTree.findLeaf e.1 t = e.2 := by
  induction h with
  | leaf e =>
    intro x hx
    rcases List.mem_singleton.mp hx with rfl
    rfl
  | branch entries i v ct it code hc hi hcP hiP ihc ihi =>
    intro e he
    by_cases hp : e.1.getD i 0 = v
    · have hmem : e ∈ entries.filter (passesTest i v) :=
        List.mem_filter.mpr ⟨he, by simp only [passesTest, hp, decide_True]⟩
      have h2 := ihc e hmem
      have hif : BinaryTree.findLeaf e.1 (BinaryTree.Branch (i, v) ct it code)
          = BinaryTree.findLeaf e.1 ct := by
        simp only [BinaryTree.findLeaf]
        rw [if_pos hp]
      rw [hif]
      exact h2
    · have hmem : e ∈ entries.filter (fun e => !passesTest i v e) :=
        List.mem_filter.mpr ⟨he, by simp only [passesTest, hp, decide_False, Bool.not_false]⟩
      have h2 := ihi e hmem
      have hif : BinaryTree.findLeaf e.1 (BinaryTree.Branch (i, v) ct it code)
          = BinaryTree.findLeaf e.1 it := by
        simp only [BinaryTree.findLeaf]
        rw [if_neg hp]
      rw [hif]
      exact h2

/-! ## Round-window helper lemmas -/

theorem mod_lt_of_ne {lvl tpr : Nat} (htpr : 0 < tpr) (h : lvl % tpr ≠ tpr - 1) :
    lvl % tpr < tpr - 1 := by
  have h1 : lvl % tpr < tpr := Nat.mod_lt _ htpr
  revert h h1
  generalize lvl % tpr = r
  intro h h1
  omega

theorem succ_mod_of_lt {lvl tpr : Nat} (h : lvl % tpr < tpr - 1) :
    (lvl + 1) % tpr = lvl % tpr + 1 := by
  have h0 : 1 < tpr := by
    revert h
    generalize lvl % tpr = r
    intro h
    omega
  have hside : lvl % tpr + 1 < tpr := by
    revert h
    generalize lvl % tpr = r
    intro h
    omega
  rw [Nat.add_mod, Nat.mod_eq_of_lt h0, Nat.mod_eq_of_lt hside]

theorem succ_mod_boundary {lvl tpr : Nat} (htpr : 0 < tpr) (h : lvl % tpr = tpr - 1) :
    (lvl + 1) % tpr = 0 := by
  rw [Nat.add_mod, h]
  by_cases h2 : 1 < tpr
  · rw [Nat.mod_eq_of_lt h2]
    have h3 : tpr - 1 + 1 = tpr := by omega
    rw [h3, Nat.mod_self]
  · have h3 : tpr = 1 := by omega
    subst h3
    rfl

theorem hasConflict_eq_false {ct it : BinaryTree α} {w : Nat}
    (h : hasConflict ct it w = false) :
    ∀ qc ∈ BinaryTree.getTests w ct, ∀ qi ∈ BinaryTree.getTests w it,
      qc.1 = qi.1 → qc.2 = qi.2 := by
  unfold hasConflict at h
  rw [List.any_eq_false] at h
  intro qc hqc qi hqi heq
  have h1 := h qc hqc
  rw [Bool.not_eq_true, List.any_eq_false] at h1
  have h2 := h1 qi hqi
  by_contra hne
  rw [Bool.not_eq_true, decide_eq_false_iff_not] at h2
  exact h2 ⟨heq, hne⟩

theorem getTests_mono {w1 w2 : Nat} (h : w1 ≤ w2) (t : BinaryTree α) :
    ∀ q ∈ BinaryTree.getTests w1 t, q ∈ BinaryTree.getTests w2 t := by
  induction t generalizing w1 w2 with
  | Leaf s =>
    intro q hq
    simp [BinaryTree.getTests] at hq
  | Branch tst c i code ihc ihi =>
    intro q hq
    rcases mem_getTests_branch.mp hq with rfl | ⟨hw, hq2⟩
    · exact mem_getTests_branch.mpr (Or.inl rfl)
    · refine mem_getTests_branch.mpr (Or.inr ⟨by omega, ?_⟩)
      rcases hq2 with hqc | hqi
      · exact Or.inl (ihc (by omega) q hqc)
      · exact Or.inr (ihi (by omega) q hqi)

theorem window_inv_zero {tests : List (List Nat)} {used : List Test} {i v : Nat}
    {ct it : BinaryTree α} {code : Option α}
    (hi : i < tests.length) (hused : ∀ q ∈ used, q.1 ≠ i) :
    WindowInv tests used 0 (BinaryTree.Branch (i, v) ct it code) := by
  constructor
  · intro q hq
    rw [getTests_zero, List.mem_singleton] at hq
    subst hq
    exact ⟨hi, hused⟩
  · intro q hq q2 hq2 _
    rw [getTests_zero, List.mem_singleton] at hq hq2
    subst hq
    subst hq2
    rfl

theorem branch_window_inv {tests : List (List Nat)} {used : List Test} {i v : Nat}
    {ct it : BinaryTree α} {code : Option α} {w : Nat} (hw : 0 < w)
    (hi : i < tests.length) (hused : ∀ q ∈ used, q.1 ≠ i)
    (hconf : hasConflict ct it w = false)
    (hct : WindowInv tests (used ++ [(i, v)]) (w - 1) ct)
    (hit : WindowInv tests (used ++ [(i, v)]) (w - 1) it) :
    WindowInv tests used w (BinaryTree.Branch (i, v) ct it code) := by
  have hmemiv : (i, v) ∈ used ++ [(i, v)] :=
    List.mem_append.mpr (Or.inr (List.mem_singleton.mpr rfl))
  have hconfspec := hasConflict_eq_false hconf
  constructor
  · intro q hq
    rcases mem_getTests_branch.mp hq with rfl | ⟨_, hq2⟩
    · exact ⟨hi, hused⟩
    · rcases hq2 with hqc | hqi
      · obtain ⟨hlt, hdisj⟩ := hct.1 q hqc
        exact ⟨hlt, fun u hu => hdisj u (List.mem_append.mpr (Or.inl hu))⟩
      · obtain ⟨hlt, hdisj⟩ := hit.1 q hqi
        exact ⟨hlt, fun u hu => hdisj u (List.mem_append.mpr (Or.inl hu))⟩
  · intro q hq q2 hq2 heq
    rcases mem_getTests_branch.mp hq with rfl | ⟨_, hqin⟩
    · rcases mem_getTests_branch.mp hq2 with rfl | ⟨_, hq2in⟩
      · rfl
      · exfalso
        rcases hq2in with hc | hic
        · exact (hct.1 q2 hc).2 (i, v) hmemiv heq
        · exact (hit.1 q2 hic).2 (i, v) hmemiv heq
    · rcases mem_getTests_branch.mp hq2 with rfl | ⟨_, hq2in⟩
      · exfalso
        rcases hqin with hc | hic
        · exact (hct.1 q hc).2 (i, v) hmemiv heq.symm
        · exact (hit.1 q hic).2 (i, v) hmemiv heq.symm
      · rcases hqin with hc | hic <;> rcases hq2in with hc2 | hic2
        · exact hct.2 q (getTests_mono (by omega) ct q hc) q2
            (getTests_mono (by omega) ct q2 hc2) heq
        · exact hconfspec q (getTests_mono (by omega) ct q hc) q2
            (getTests_mono (by omega) it q2 hic2) heq
        · exact (hconfspec q2 (getTests_mono (by omega) ct q2 hc2) q
            (getTests_mono (by omega) it q hic) heq.symm).symm
        · exact hit.2 q (getTests_mono (by omega) it q hic) q2
            (getTests_mono (by omega) it q2 hic2) heq

theorem findCode_eq_some {m : List (List Nat × List α)} {tests : List (List Nat)}
    {window : List Test} {c : α} (h : findCode m tests window = some c) :
    ∃ p cs, p ∈ getPermutations (overrideResults tests window) ∧
      mapGet m p = some cs ∧ cs.head? = some c := by
  unfold findCode at h
  obtain ⟨p, hp, hh⟩ := List.exists_of_findSome?_eq_some h
  cases hm : mapGet m p with
  | none =>
    rw [hm] at hh
    exact absurd hh (by simp)
  | some cs =>
    rw [hm] at hh
    exact ⟨p, cs, hp, hm, by simpa using hh⟩

theorem findCode_window {m : List (List Nat × List α)} {tests : List (List Nat)}
    {window : List Test} {c : α} (hc : findCode m tests window = some c)
    (hwr : ∀ q ∈ window, q.1 < tests.length)
    (hwf : ∀ q ∈ window, ∀ q2 ∈ window, q.1 = q2.1 → q.2 = q2.2) :
    ∃ p cs, mapGet m p = some cs ∧ cs.head? = some c ∧
      ∀ q ∈ window, p.getD q.1 0 = q.2 := by
  obtain ⟨p, cs, hp, hm, hh⟩ := findCode_eq_some hc
  refine ⟨p, cs, hm, hh, ?_⟩
  intro q hq
  obtain ⟨hplen, hpall⟩ := getPermutations_spec hp
  have hlen : q.1 < (overrideResults tests window).length := by
    rw [overrideResults_length]
    exact hwr q hq
  have hval := hpall q.1 hlen
  have hov := overrideResults_getD window
    (fun b hb hb1 => hwf b hb q hq hb1) tests (Or.inl hq) (hwr q hq)
  rw [hov] at hval
  simpa using hval

theorem roundCodesP_congr {solutionMap : List (List Nat × List α)} {tpr : Nat}
    (t : BinaryTree α) :
    ∀ l1 l2 : Nat, l1 % tpr = l2 % tpr →
      RoundCodesP solutionMap tpr l1 t → RoundCodesP solutionMap tpr l2 t := by
  induction t with
  | Leaf s =>
    intro l1 l2 h hr
    trivial
  | Branch tst c i code ihc ihi =>
    intro l1 l2 h hr
    obtain ⟨h0, hcp, hip⟩ := hr
    have hsucc : (l1 + 1) % tpr = (l2 + 1) % tpr := by
      rw [Nat.add_mod, Nat.add_mod l2, h]
    refine ⟨?_, ihc _ _ hsucc hcp, ihi _ _ hsucc hip⟩
    rw [← h]
    exact h0

/-! ## The round-code invariant of the search -/

theorem search_windows (tpr : Nat) (htpr : 0 < tpr) : ∀ fuel : Nat,
    (∀ (entries : List (Feasible α)) (tests : List (List Nat))
      (solutionMap : List (List Nat × List α)) (lvl : Nat) (ab : Option Nat)
      (optd : Nat) (used : List Test) (t : BinaryTree α),
      t ∈ constructTreesRecF fuel entries tests solutionMap lvl ab tpr optd used →
        WindowInv tests used (tpr - lvl % tpr - 1) t ∧
        RoundCodesP solutionMap tpr lvl t) ∧
    (∀ (entries : List (Feasible α)) (solutionMap : List (List Nat × List α))
      (t : BinaryTree α),
      optimalTreeF fuel entries solutionMap tpr = some t →
        RoundCodesP solutionMap tpr 0 t) := by
  intro fuel
  induction fuel with
  | zero =>
    constructor
    · intro entries tests M lvl ab optd used t ht
      exact absurd ht (by simp [constructTreesRecF])
    · intro entries M t ht
      exact absurd ht (by simp [optimalTreeF])
  | succ fuel ih =>
    constructor
    · intro entries tests M lvl ab optd used t ht
      rcases mem_constructTreesRecF ht with ⟨e, rfl, rfl⟩ |
        ⟨node, hnode, ab2, ct, it, hct, hit, hpair⟩
      · refine ⟨⟨?_, ?_⟩, trivial⟩
        · intro q hq
          simp [BinaryTree.getTests] at hq
        · intro q hq
          simp [BinaryTree.getTests] at hq
      · obtain ⟨i, v, hnodeEq, hi, hused, hcne, hine⟩ := possibleTests_mem hnode
        have htest : node.test = (i, v) := by rw [hnodeEq]; rfl
        rw [htest] at hct hit hpair
        obtain ⟨hconf, hshape⟩ := hpair
        by_cases hb : lvl % tpr = tpr - 1
        · have hw0 : tpr - lvl % tpr - 1 = 0 := by
            rw [hb]
            omega
          rw [if_pos hb] at hct hit
          have hmod0 : (0 : Nat) % tpr = (lvl + 1) % tpr := by
            rw [Nat.zero_mod, succ_mod_boundary htpr hb]
          have hctC : RoundCodesP M tpr (lvl + 1) ct :=
            roundCodesP_congr ct 0 (lvl + 1) hmod0 (ih.2 _ _ _ hct)
          have hitC : RoundCodesP M tpr (lvl + 1) it :=
            roundCodesP_congr it 0 (lvl + 1) hmod0 (ih.2 _ _ _ hit)
          rcases hshape with ⟨h0, c, hfc, rfl⟩ | ⟨h0, rfl⟩
          · have htpr1 : tpr - 1 = 0 := by
              rw [← hb]
              exact h0
            have hwin0 : BinaryTree.getTests (tpr - 1)
                (BinaryTree.Branch (i, v) ct it (none : Option α)) = [(i, v)] := by
              rw [htpr1, getTests_zero]
            have hwr : ∀ q ∈ BinaryTree.getTests (tpr - 1)
                (BinaryTree.Branch (i, v) ct it (none : Option α)), q.1 < tests.length := by
              intro q hq
              rw [hwin0, List.mem_singleton] at hq
              subst hq
              exact hi
            have hwf : ∀ q ∈ BinaryTree.getTests (tpr - 1)
                (BinaryTree.Branch (i, v) ct it (none : Option α)),
                ∀ q2 ∈ BinaryTree.getTests (tpr - 1)
                  (BinaryTree.Branch (i, v) ct it (none : Option α)),
                q.1 = q2.1 → q.2 = q2.2 := by
              intro q hq q2 hq2 _
              rw [hwin0, List.mem_singleton] at hq hq2
              subst hq
              subst hq2
              rfl
            obtain ⟨p, cs, hm, hhead, hpwin⟩ := findCode_window hfc hwr hwf
            constructor
            · rw [hw0]
              exact window_inv_zero hi hused
            · refine ⟨?_, hctC, hitC⟩
              rw [if_pos h0]
              refine ⟨c, p, cs, rfl, hm, hhead, ?_⟩
              intro q hq
              rw [← getTests_code_irrel (tpr - 1) (i, v) ct it none (some c)] at hq
              exact hpwin q hq
          · constructor
            · rw [hw0]
              exact window_inv_zero hi hused
            · refine ⟨?_, hctC, hitC⟩
              rw [if_neg h0]
        · have hlt := mod_lt_of_ne htpr hb
          have hsucc := succ_mod_of_lt hlt
          rw [if_neg hb] at hct hit
          obtain ⟨hctW, hctC⟩ := ih.1 _ _ _ _ _ _ _ _ hct
          obtain ⟨hitW, hitC⟩ := ih.1 _ _ _ _ _ _ _ _ hit
          have hwc : tpr - (lvl + 1) % tpr - 1 = tpr - lvl % tpr - 1 - 1 := by
            rw [hsucc]
            revert hlt
            generalize lvl % tpr = r
            intro hlt
            omega
          rw [hwc] at hctW hitW
          have hwpos : 0 < tpr - lvl % tpr - 1 := by
            revert hlt
            generalize lvl % tpr = r
            intro hlt
            omega
          rcases hshape with ⟨h0, c, hfc, rfl⟩ | ⟨h0, rfl⟩
          · have hWt : WindowInv tests used (tpr - lvl % tpr - 1)
                (BinaryTree.Branch (i, v) ct it (some c)) :=
              branch_window_inv hwpos hi hused hconf hctW hitW
            have hww : tpr - lvl % tpr - 1 = tpr - 1 := by rw [h0]; omega
            have hwin : BinaryTree.getTests (tpr - 1)
                (BinaryTree.Branch (i, v) ct it (none : Option α))
                = BinaryTree.getTests (tpr - 1) (BinaryTree.Branch (i, v) ct it (some c)) :=
              getTests_code_irrel _ _ _ _ _ _
            have hwr : ∀ q ∈ BinaryTree.getTests (tpr - 1)
                (BinaryTree.Branch (i, v) ct it (none : Option α)), q.1 < tests.length := by
              intro q hq
              rw [hwin] at hq
              rw [← hww] at hq
              exact (hWt.1 q hq).1
            have hwf : ∀ q ∈ BinaryTree.getTests (tpr - 1)
                (BinaryTree.Branch (i, v) ct it (none : Option α)),
                ∀ q2 ∈ BinaryTree.getTests (tpr - 1)
                  (BinaryTree.Branch (i, v) ct it (none : Option α)),
                q.1 = q2.1 → q.2 = q2.2 := by
              intro q hq q2 hq2 heq
              rw [hwin, ← hww] at hq hq2
              exact hWt.2 q hq q2 hq2 heq
            obtain ⟨p, cs, hm, hhead, hpwin⟩ := findCode_window hfc hwr hwf
            constructor
            · exact hWt
            · refine ⟨?_, hctC, hitC⟩
              rw [if_pos h0]
              refine ⟨c, p, cs, rfl, hm, hhead, ?_⟩
              intro q hq
              rw [← hwin] at hq
              exact hpwin q hq
          · constructor
            · exact branch_window_inv hwpos hi hused hconf hctW hitW
            · refine ⟨?_, hctC, hitC⟩
              rw [if_neg h0]
    · intro entries M t ht
      obtain ⟨hne, hmem⟩ := optimalTreeF_eq_some ht
      exact (ih.1 _ _ _ _ _ _ _ _ hmem).2

theorem roundCodesP_spec {solutionMap : List (List Nat × List α)} {tpr : Nat}
    {out : α → List Nat} (hacc : AccurateMap out solutionMap) (t : BinaryTree α) :
    ∀ lvl, RoundCodesP solutionMap tpr lvl t → RoundCodeSpec out tpr lvl t := by
  induction t with
  | Leaf s =>
    intro lvl h
    trivial
  | Branch tst c i code ihc ihi =>
    intro lvl h
    obtain ⟨h0, hcp, hip⟩ := h
    refine ⟨?_, ?_, ihc _ hcp, ihi _ hip⟩
    · by_cases hl : lvl % tpr = 0
      · rw [if_pos hl] at h0
        obtain ⟨c0, p, cs, hcode, _, _, _⟩ := h0
        exact ⟨fun _ => hl, fun _ => ⟨c0, hcode⟩⟩
      · rw [if_neg hl] at h0
        constructor
        · rintro ⟨c0, hc0⟩
          rw [h0] at hc0
          exact absurd hc0 (by simp)
        · intro hl2
          exact absurd hl2 hl
    · intro c0 hc0 q hq
      by_cases hl : lvl % tpr = 0
      · rw [if_pos hl] at h0
        obtain ⟨c1, p, cs, hcode, hm, hhead, hwin⟩ := h0
        have hc1 : c1 = c0 := by
          rw [hcode] at hc0
          exact Option.some_inj.mp hc0
        subst hc1
        have hcmem : c1 ∈ cs := List.mem_of_mem_head? (Option.mem_def.mpr hhead)
        have hout : out c1 = p := hacc p cs hm c1 hcmem
        rw [hout]
        exact hwin q hq
      · rw [if_neg hl] at h0
        rw [h0] at hc0
        exact absurd hc0 (by simp)

/-! ## Safety of the pruning arithmetic -/

theorem reachCall_abort {tpr : Nat} {entries : List (Feasible α)}
    {tests : List (List Nat)} {lvl : Nat} {ab : Option Nat} {used : List Test}
    (h : ReachCall tpr entries tests lvl ab used) :
    ∀ a : Nat, ab = some a → 2 ≤ entries.length → lvl + 1 ≤ a := by
  induction h with
  | root entries ab hab =>
    intro a ha h2
    rcases hab with rfl | ⟨t0, c, i, cd, rfl⟩
    · exact absurd ha (by simp)
    · have hd : BinaryTree.maxDepth (BinaryTree.Branch t0 c i cd) = a :=
        Option.some_inj.mp ha
      rw [← hd]
      show 0 + 1 ≤ 1 + max (BinaryTree.maxDepth c) (BinaryTree.maxDepth i)
      rw [Nat.zero_add]
      exact Nat.le_add_right 1 _
  | childCorrect entries tests lvl ab used node hre hnode hskip hb ih =>
    intro a ha h2
    subst ha
    obtain ⟨i, v, hnodeEq, hi, hused, hcne, hine⟩ := possibleTests_mem hnode
    have hlen : node.correct.length + node.incorrect.length = entries.length := by
      rw [hnodeEq]
      exact fromTest_length entries i v
    have hc1 : node.correct ≠ [] := hcne
    have hi1 : node.incorrect ≠ [] := hine
    have hparent2 : 2 ≤ entries.length := by
      have hc2 : 0 < node.correct.length := List.length_pos.mpr hc1
      have hi2 : 0 < node.incorrect.length := List.length_pos.mpr hi1
      omega
    have hIH := ih a rfl hparent2
    have hg : node.correct.length ≤ 2 ^ (a - 1 - lvl) := by
      unfold abortSkip at hskip
      rw [Bool.or_eq_false_iff] at hskip
      have h1 := hskip.1
      rw [decide_eq_false_iff_not] at h1
      omega
    have hpow : 2 ≤ 2 ^ (a - 1 - lvl) := le_trans h2 hg
    have hk : 1 ≤ a - 1 - lvl := by
      by_contra hc
      have hk0 : a - 1 - lvl = 0 := by omega
      rw [hk0] at hpow
      simp at hpow
    omega
  | childIncorrect entries tests lvl ab used node hre hnode hskip hb ih =>
    intro a ha h2
    subst ha
    obtain ⟨i, v, hnodeEq, hi, hused, hcne, hine⟩ := possibleTests_mem hnode
    have hlen : node.correct.length + node.incorrect.length = entries.length := by
      rw [hnodeEq]
      exact fromTest_length entries i v
    have hparent2 : 2 ≤ entries.length := by
      have hc2 : 0 < node.correct.length := List.length_pos.mpr hcne
      have hi2 : 0 < node.incorrect.length := List.length_pos.mpr hine
      omega
    have hIH := ih a rfl hparent2
    have hg : node.incorrect.length ≤ 2 ^ (a - 1 - lvl) := by
      unfold abortSkip at hskip
      rw [Bool.or_eq_false_iff] at hskip
      have h1 := hskip.2
      rw [decide_eq_false_iff_not] at h1
      omega
    have hpow : 2 ≤ 2 ^ (a - 1 - lvl) := le_trans h2 hg
    have hk : 1 ≤ a - 1 - lvl := by
      by_contra hc
      have hk0 : a - 1 - lvl = 0 := by omega
      rw [hk0] at hpow
      simp at hpow
    omega

/-- The concrete catalogue `exMap2` is accurate for the outcome function
`exOut`. -/
theorem exMap2_accurate : AccurateMap exOut exMap2 := by
  intro k cs h x hx
  have hmem := mapGet_eq_some h
  simp only [exMap2, List.mem_cons, List.mem_singleton, Prod.mk.injEq,
    List.not_mem_nil, or_false] at hmem
  rcases hmem with ⟨hk, hcs⟩ | ⟨hk, hcs⟩
  · subst hk
    subst hcs
    rcases List.mem_singleton.mp hx with rfl
    rfl
  · subst hk
    subst hcs
    rcases List.mem_singleton.mp hx with rfl
    rfl

/-! ## The claims -/

/-- C1: the claim asserts the root-level early exit fires when a candidate
tree's `total_depth` matches the `optimal_tree` bound and that this is
attainable.  In fact the condition is unsatisfiable for every batch of at
least two candidates: every tree in the root-level result has
`total_depth = n - 1`, while the computed bound satisfies
`totalSize n ≥ 2n > n - 1`, so the greedy `return` of lines 398-402 is dead
code (the code's own comment says the search should stop once an optimal
tree is found). -/
theorem claim_c1_early_exit_unsatisfiable {entries : List (Feasible α)}
    {tests : List (List Nat)} {solutionMap : List (List Nat × List α)}
    {ab : Option Nat} {tpr : Nat} {used : List Test} {t : BinaryTree α}
    (h2 : 2 ≤ entries.length)
    (h : t ∈ constructTreesRec entries tests solutionMap 0 ab tpr
      (totalSize entries.length) used) :
    BinaryTree.totalDepth t ≠ totalSize entries.length := by
  have hp := constructTreesRec_partitions h
  have hd := partitions_totalDepth hp
  have hg := totalSize_gt entries.length h2
  omega

/-- C1 witness: on the two-candidate example, the search result has total
depth 1 while the early-exit bound is `totalSize 2 = 4`. -/
theorem claim_c1_witness :
    BinaryTree.totalDepth
      (BinaryTree.Branch (0, 1) (BinaryTree.Leaf 11) (BinaryTree.Leaf 10) (some 11))
      ≠ totalSize exEntries2.length :=
  claim_c1_early_exit_unsatisfiable (by decide)
    (show BinaryTree.Branch (0, 1) (BinaryTree.Leaf 11) (BinaryTree.Leaf 10) (some 11) ∈
      constructTreesRec exEntries2 (computeTests exEntries2) exMap2 0 none 1
        (totalSize exEntries2.length) [] by decide)

/-- C2 counterexample: for the two-leaf branch, `total_depth` is 1 but the
total root-to-leaf path length summed over all leaves is 2, refuting the
claimed equality. -/
theorem claim_c2_counterexample :
    ¬ BinaryTree.totalDepth exTree2 = BinaryTree.sumLeafDepths exTree2 := by
  decide

/-- C2 amended: `total_depth` (0 for a Leaf, `1 + passed + failed` for a
Branch, as the code defines it) equals the number of leaves minus one, i.e.
the number of Branch nodes — not the summed root-to-leaf path length. -/
theorem claim_c2_totalDepth_eq_leaves_sub_one (t : BinaryTree α) :
    BinaryTree.totalDepth t + 1 = (BinaryTree.leavesList t).length :=
  totalDepth_add_one_eq_leaves t

/-- C3: in every tree returned by `optimal_tree`, a branch at depth `d`
carries `some` round code iff `d % tests_per_round = 0`, and, assuming every
solution stored in the catalogue produces its key vector, the stored code's
outcome vector reproduces exactly the committed value of every test pair in
that node's `get_tests (tests_per_round - 1)` window. -/
theorem claim_c3_round_codes {entries : List (Feasible α)}
    {solutionMap : List (List Nat × List α)} {tpr : Nat} {out : α → List Nat}
    {t : BinaryTree α} (htpr : 0 < tpr) (hacc : AccurateMap out solutionMap)
    (h : optimalTree entries solutionMap tpr = some t) :
    RoundCodeSpec out tpr 0 t := by
  have hc := (search_windows tpr htpr (2 * entries.length + 2)).2 _ _ _ h
  exact roundCodesP_spec hacc t 0 hc

/-- C3 witness: the tree returned on the two-candidate example satisfies the
round-code specification. -/
theorem claim_c3_witness :
    RoundCodeSpec exOut 1 0
      (BinaryTree.Branch (0, 1) (BinaryTree.Leaf 11) (BinaryTree.Leaf 10) (some 11)) :=
  claim_c3_round_codes (by decide) exMap2_accurate
    (show optimalTree exEntries2 exMap2 1 = some
      (BinaryTree.Branch (0, 1) (BinaryTree.Leaf 11) (BinaryTree.Leaf 10) (some 11)) by decide)

/-- C4: on a batch whose outcome vectors (and solutions) are pairwise
distinct, every returned tree is sound — walking it guided by a candidate's
outcome vector reaches that candidate's solution — and complete without
duplication: each solution occurs at exactly one leaf. -/
theorem claim_c4_soundness_uniqueness [DecidableEq α] {entries : List (Feasible α)}
    {solutionMap : List (List Nat × List α)} {tpr : Nat} {t : BinaryTree α}
    (hdist : entries.Pairwise (fun e1 e2 => e1.1 ≠ e2.1 ∧ e1.2 ≠ e2.2))
    (h : optimalTree entries solutionMap tpr = some t) :
    (∀ e ∈ entries, BinaryTree.findLeaf e.1 t = e.2) ∧
    (∀ e ∈ entries, (BinaryTree.leavesList t).count e.2 = 1) := by
  have hp := optimalTree_partitions h
  constructor
  · exact partitions_findLeaf hp
  · intro e he
    rw [(partitions_leaves_perm hp).count_eq]
    have hnodup : (entries.map Prod.snd).Nodup :=
      List.Pairwise.map Prod.snd (fun a b hab => hab.2) hdist
    exact List.count_eq_one_of_mem hnodup (List.mem_map.mpr ⟨e, he, rfl⟩)

/-- C4 witness: concrete soundness and uniqueness on the two-candidate
example. -/
theorem claim_c4_witness :
    (∀ e ∈ exEntries2, BinaryTree.findLeaf e.1
      (BinaryTree.Branch (0, 1) (BinaryTree.Leaf 11) (BinaryTree.Leaf 10) (some 11)) = e.2) ∧
    (∀ e ∈ exEntries2, (BinaryTree.leavesList
      (BinaryTree.Branch (0, 1) (BinaryTree.Leaf 11) (BinaryTree.Leaf 10) (some 11))).count e.2
        = 1) :=
  claim_c4_soundness_uniqueness (by decide)
    (show optimalTree exEntries2 exMap2 1 = some
      (BinaryTree.Branch (0, 1) (BinaryTree.Leaf 11) (BinaryTree.Leaf 10) (some 11)) by decide)

/-- C5: `optimal_tree` returns `none` exactly when the batch is empty or the
recursive search produced no round-consistent tree; any returned tree is a
single complete tree satisfying the partition invariant (no partial
results). -/
theorem claim_c5_none_iff (entries : List (Feasible α))
    (solutionMap : List (List Nat × List α)) (tpr : Nat) :
    (optimalTree entries solutionMap tpr = none ↔
      (entries = [] ∨ constructTreesRec entries (computeTests entries) solutionMap 0 none tpr
        (totalSize entries.length) [] = [])) ∧
    (∀ t, optimalTree entries solutionMap tpr = some t → Partitions entries t) := by
  constructor
  · cases entries with
    | nil =>
      constructor
      · intro _
        exact Or.inl rfl
      · intro _
        rfl
    | cons e rest =>
      have hopt : optimalTree (e :: rest) solutionMap tpr
          = (sortTrees (constructTreesRec (e :: rest) (computeTests (e :: rest)) solutionMap 0
              none tpr (totalSize (e :: rest).length) [])).getLast? := rfl
      rw [hopt]
      constructor
      · intro h
        right
        exact sortTrees_eq_nil.mp (List.getLast?_eq_none_iff.mp h)
      · rintro (h | h)
        · exact absurd h (by simp)
        · rw [h]
          rfl
  · intro t ht
    exact optimalTree_partitions ht

/-- C5 witness: the tree returned on the two-candidate example is complete
(partition invariant). -/
theorem claim_c5_witness :
    Partitions exEntries2
      (BinaryTree.Branch (0, 1) (BinaryTree.Leaf 11) (BinaryTree.Leaf 10) (some 11)) :=
  (claim_c5_none_iff exEntries2 exMap2 1).2 _ (by decide)

/-- C6: every tree produced by the search over a batch satisfies the
partition invariant: each branch's `correct` subtree covers exactly the
candidates of its batch passing the branch's test, the `incorrect` subtree
exactly the complement, and both are non-empty, recursively. -/
theorem claim_c6_partition_invariant {entries : List (Feasible α)}
    {tests : List (List Nat)} {solutionMap : List (List Nat × List α)}
    {lvl : Nat} {ab : Option Nat} {tpr optd : Nat} {used : List Test} {t : BinaryTree α}
    (h : t ∈ constructTreesRec entries tests solutionMap lvl ab tpr optd used) :
    Partitions entries t :=
  constructTreesRec_partitions h

/-- C6 witness: the first tree found over the two-candidate batch partitions
it. -/
theorem claim_c6_witness :
    Partitions exEntries2
      (BinaryTree.Branch (0, 0) (BinaryTree.Leaf 10) (BinaryTree.Leaf 11) (some 10)) :=
  claim_c6_partition_invariant
    (show BinaryTree.Branch (0, 0) (BinaryTree.Leaf 10) (BinaryTree.Leaf 11) (some 10) ∈
      constructTreesRec exEntries2 (computeTests exEntries2) exMap2 0 none 1
        (totalSize exEntries2.length) [] by decide)

/-- C7: `TestResult::from_test` deterministically partitions the batch: the
`correct` output is exactly the order-preserving sublist of entries whose
outcome at the test id equals the test value, and `incorrect` exactly the
complementary sublist, with no duplication or removal. -/
theorem claim_c7_splitter (entries : List (Feasible α)) (i v : Nat) :
    fromTest entries (i, v) = TestResult.mk (i, v)
      (entries.filter (passesTest i v))
      (entries.filter (fun e => !passesTest i v e)) := by
  unfold fromTest
  rw [fromTestAux_fst, fromTestAux_snd]

/-- C8 counterexample: on the four-candidate batch `exEntries8` with
catalogue `exMap8`, `tests_per_round = 1` yields a tree of worst-case depth
2 but `tests_per_round = 2` yields depth 3: increasing `tests_per_round`
strictly increased the returned tree's worst-case depth, refuting the
claimed monotonicity. -/
theorem claim_c8_counterexample :
    (optimalTree exEntries8 exMap8 1).map BinaryTree.maxDepth = some 2 ∧
    (optimalTree exEntries8 exMap8 2).map BinaryTree.maxDepth = some 3 := by
  constructor
  · decide
  · decide

/-- C8 amended: monotonicity in `tests_per_round` fails (see the
counterexample); what does hold for every `tests_per_round` is the
information bound: every returned tree's worst-case depth satisfies
`batch size ≤ 2 ^ max_depth`, so increasing `tests_per_round` never takes
the depth below the information-theoretic floor. -/
theorem claim_c8_depth_lower_bound {entries : List (Feasible α)}
    {solutionMap : List (List Nat × List α)} {tpr : Nat} {t : BinaryTree α}
    (h : optimalTree entries solutionMap tpr = some t) :
    entries.length ≤ 2 ^ BinaryTree.maxDepth t := by
  have hp := optimalTree_partitions h
  have h1 := partitions_leaves_length hp
  rw [← h1]
  exact leaves_le_pow_maxDepth t

/-- C8 witness: the information bound holds on the two-candidate example. -/
theorem claim_c8_witness :
    exEntries2.length ≤ 2 ^ BinaryTree.maxDepth
      (BinaryTree.Branch (0, 1) (BinaryTree.Leaf 11) (BinaryTree.Leaf 10) (some 11)) :=
  claim_c8_depth_lower_bound
    (show optimalTree exEntries2 exMap2 1 = some
      (BinaryTree.Branch (0, 1) (BinaryTree.Leaf 11) (BinaryTree.Leaf 10) (some 11)) by decide)

/-- C9: `size = 2 * total_depth + 1`; equivalently `total_depth` is the
number of leaves minus one, so it depends only on the leaf count, and any
two trees produced by the search over the same batch have identical
`total_depth` — the summed-depth tie-breaker never distinguishes them. -/
theorem claim_c9_size_totalDepth :
    (∀ t : BinaryTree α, BinaryTree.size t = 2 * BinaryTree.totalDepth t + 1) ∧
    (∀ t : BinaryTree α, BinaryTree.totalDepth t + 1 = (BinaryTree.leavesList t).length) ∧
    (∀ (entries : List (Feasible α)) (tests : List (List Nat))
      (solutionMap : List (List Nat × List α)) (lvl : Nat) (ab : Option Nat)
      (tpr optd : Nat) (used : List Test) (t1 t2 : BinaryTree α),
      t1 ∈ constructTreesRec entries tests solutionMap lvl ab tpr optd used →
      t2 ∈ constructTreesRec entries tests solutionMap lvl ab tpr optd used →
      BinaryTree.totalDepth t1 = BinaryTree.totalDepth t2) := by
  refine ⟨size_eq_two_totalDepth_add_one, totalDepth_add_one_eq_leaves, ?_⟩
  intro entries tests M lvl ab tpr optd used t1 t2 h1 h2
  rw [partitions_totalDepth (constructTreesRec_partitions h1),
    partitions_totalDepth (constructTreesRec_partitions h2)]

/-- C9 witness: the two candidate trees over the two-candidate batch have
the same total depth. -/
theorem claim_c9_witness :
    BinaryTree.totalDepth
      (BinaryTree.Branch (0, 0) (BinaryTree.Leaf 10) (BinaryTree.Leaf 11) (some 10))
      = BinaryTree.totalDepth
      (BinaryTree.Branch (0, 1) (BinaryTree.Leaf 11) (BinaryTree.Leaf 10) (some 11)) :=
  claim_c9_size_totalDepth.2.2 exEntries2 (computeTests exEntries2) exMap2 0 none 1
    (totalSize exEntries2.length) [] _ _ (by decide) (by decide)

/-- C10: on every configuration of `construct_trees_rec` reachable from
`optimal_tree` (as over-approximated by `ReachCall`), whenever the
effective abort bound is `some a` and the batch holds at least two
candidates — i.e. whenever the pruning check of lines 311-316 runs — the
bound satisfies `a ≥ current_level + 1`, so the `u8` subtraction
`a - 1 - current_level` never underflows and the shift amount is the exact
mathematical difference. -/
theorem claim_c10_pruning_no_underflow {tpr : Nat} {entries : List (Feasible α)}
    {tests : List (List Nat)} {lvl : Nat} {ab : Option Nat} {used : List Test}
    (h : ReachCall tpr entries tests lvl ab used) :
    ∀ a : Nat, ab = some a → 2 ≤ entries.length → lvl + 1 ≤ a :=
  reachCall_abort h

/-- C10 witness: a root-level configuration whose abort bound is the depth
of an already-found branch satisfies the bound inequality. -/
theorem claim_c10_witness : (0 : Nat) + 1 ≤ BinaryTree.maxDepth exTree2 :=
  claim_c10_pruning_no_underflow
    (@ReachCall.root 1 Nat exEntries2 (some (BinaryTree.maxDepth exTree2))
      (Or.inr ⟨(0, 0), BinaryTree.Leaf 0, BinaryTree.Leaf 1, none, rfl⟩))
    (BinaryTree.maxDepth exTree2) rfl (by decide)
